import Mathlib

/-!
Verification of `src/constructors/full.c` (igraph): the full-graph generator
`igraph_full` and the full-citation-graph generator `igraph_full_citation`.

The edge vector of the C code is a flat sequence of vertex indices, two slots
per edge.  We embed the generators at two granularities: as lists of ordered
pairs (one pair per loop iteration that pushes/writes the two indices `i`, `j`)
and, for `igraph_full_citation`, additionally as a slot-level indexed-write
model over a pre-sized array, mirroring `VECTOR(edges)[ptr++] = …`.
-/

namespace IgraphFull

/-- The modelled error code: `IGRAPH_EINVAL` ("invalid number of vertices"),
the only error raised by the code under verification itself (allocation
failures and errors of the external graph constructor are outside the model). -/
inductive GenError where
  | invalidArgument
deriving DecidableEq

/-- Edge list produced by the four enumeration branches of `igraph_full`
(full.c lines 75–111), for a non-negative vertex count `n`.  Each loop
iteration pushes the pair `(i, j)`:
* directed ∧ loops: `i` from 0 to n−1, `j` from 0 to n−1;
* directed ∧ ¬loops: `i` from 0 to n−1, first `j` from 0 to i−1, then
  `j` from i+1 to n−1;
* ¬directed ∧ loops: `i` from 0 to n−1, `j` from i to n−1;
* ¬directed ∧ ¬loops: `i` from 0 to n−1, `j` from i+1 to n−1. -/
def fullEdges (n : Nat) (directed loops : Bool) : List (Nat × Nat) :=
  if directed && loops then
    (List.range n).flatMap (fun i => (List.range n).map (fun j => (i, j)))
  else if directed && !loops then
    (List.range n).flatMap (fun i =>
      (List.range i).map (fun j => (i, j)) ++
      (List.range' (i + 1) (n - (i + 1))).map (fun j => (i, j)))
  else if !directed && loops then
    (List.range n).flatMap (fun i =>
      (List.range' i (n - i)).map (fun j => (i, j)))
  else
    (List.range n).flatMap (fun i =>
      (List.range' (i + 1) (n - (i + 1))).map (fun j => (i, j)))

/-- `igraph_full` (full.c lines 63–118): rejects `n < 0` with
`IGRAPH_EINVAL` before any edge is generated, otherwise builds the edge
list of the selected variant and hands it to the external constructor. -/
def igraph_full (n : Int) (directed loops : Bool) :
    Except GenError (List (Nat × Nat)) :=
  if n < 0 then Except.error GenError.invalidArgument
  else Except.ok (fullEdges n.toNat directed loops)

/-- The capacity passed to `igraph_vector_reserve` by each branch of
`igraph_full` (full.c lines 76, 84, 96, 104), measured in vector slots. -/
def reserveCapacity (n : Nat) (directed loops : Bool) : Nat :=
  if directed && loops then n * n
  else if directed && !loops then n * (n - 1)
  else if !directed && loops then n * (n + 1) / 2
  else n * (n - 1) / 2

/-- Number of vector slots appended by the push loops of `igraph_full`:
each generated edge contributes two `igraph_vector_push_back` calls. -/
def fullSlotsAppended (n : Nat) (directed loops : Bool) : Nat :=
  2 * (fullEdges n directed loops).length

/-- The closed-form edge count of the spec's §4.1 table: n² for
directed+loops, n(n−1) for directed+no-loops, n(n+1)/2 for
undirected+loops, n(n−1)/2 for undirected+no-loops. -/
def fullEdgeCount (n : Nat) (directed loops : Bool) : Nat :=
  if directed && loops then n * n
  else if directed && !loops then n * (n - 1)
  else if !directed && loops then n * (n + 1) / 2
  else n * (n - 1) / 2

/-- Edge list produced by `igraph_full_citation` (full.c lines 143–148),
for a non-negative vertex count `n`: for `i` from 1 to n−1 and `j` from 0
to i−1, the pair `(i, j)` (each iteration writes the two slots `i`, `j`). -/
def citationEdges (n : Nat) : List (Nat × Nat) :=
  (List.range' 1 (n - 1)).flatMap (fun i =>
    (List.range i).map (fun j => (i, j)))

/-- The flat sequence of slot values written by `igraph_full_citation`'s
loops, in write order: `VECTOR(edges)[ptr++] = i; VECTOR(edges)[ptr++] = j`
for `i` from 1 to n−1, `j` from 0 to i−1. -/
def citationSlots (n : Nat) : List Int :=
  (List.range' 1 (n - 1)).flatMap (fun i =>
    (List.range i).flatMap (fun j => [(i : Int), (j : Int)]))

/-- One indexed write `VECTOR(edges)[ptr++] = v` on state (vector, ptr):
fails (models an out-of-bounds access) if `ptr` is not within the vector. -/
def vecWriteStep (st : Array Int × Nat) (v : Int) : Option (Array Int × Nat) :=
  if h : st.2 < st.1.size then some (st.1.set ⟨st.2, h⟩ v, st.2 + 1) else none

/-- The fill phase of `igraph_full_citation` (full.c lines 140–148): the
vector is initialized to `n*(n-1)` zero slots
(`IGRAPH_VECTOR_INIT_FINALLY(&edges, n * (n - 1))`), then the loops perform
the sequential indexed writes.  `none` means some write was out of bounds. -/
def citationFill (n : Int) : Option (Array Int × Nat) :=
  (citationSlots n.toNat).foldlM vecWriteStep
    (Array.mkArray (n * (n - 1)).toNat 0, 0)

/-- `igraph_full_citation` (full.c lines 137–154): performs no validation
of `n`, fills the pre-sized vector and hands it (as a flat slot list) to
the external constructor.  `none` models undefined behavior from an
out-of-bounds write; no modelled error path exists in this function. -/
def igraph_full_citation (n : Int) (directed : Bool) :
    Option (Except GenError (List Int)) :=
  (citationFill n).map (fun st => Except.ok st.1.toList)

/-- Strict emission order on edges: earlier first index, or equal first
index and smaller second index. -/
def edgeLt (a b : Nat × Nat) : Prop :=
  a.1 < b.1 ∨ (a.1 = b.1 ∧ a.2 < b.2)

/- ### Membership characterizations -/

theorem mem_fullEdges_tt {n u v : Nat} :
    (u, v) ∈ fullEdges n true true ↔ u < n ∧ v < n := by
  simp [fullEdges, Prod.ext_iff]

theorem mem_fullEdges_tf {n u v : Nat} :
    (u, v) ∈ fullEdges n true false ↔ u < n ∧ v < n ∧ u ≠ v := by
  simp [fullEdges, List.mem_range'_1, Prod.ext_iff]
  constructor
  · rintro ⟨a, ha, h⟩
    rcases h with ⟨h1, rfl⟩ | ⟨h2, rfl⟩ <;> omega
  · rintro ⟨hu, hv, huv⟩
    exact ⟨u, hu, by omega⟩

theorem mem_fullEdges_ft {n u v : Nat} :
    (u, v) ∈ fullEdges n false true ↔ u ≤ v ∧ v < n := by
  simp [fullEdges, List.mem_range'_1, Prod.ext_iff]
  omega

theorem mem_fullEdges_ff {n u v : Nat} :
    (u, v) ∈ fullEdges n false false ↔ u < v ∧ v < n := by
  simp [fullEdges, List.mem_range'_1, Prod.ext_iff]
  omega

theorem mem_citationEdges {n u v : Nat} :
    (u, v) ∈ citationEdges n ↔ v < u ∧ u < n := by
  simp [citationEdges, List.mem_range'_1, Prod.ext_iff]
  omega

/- ### Edge counts -/

theorem sum_map_range (f : Nat → Nat) (n : Nat) :
    ((List.range n).map f).sum = ∑ i ∈ Finset.range n, f i := by
  induction n with
  | zero => simp
  | succ n ih =>
    rw [List.range_succ, Finset.sum_range_succ, List.map_append,
      List.sum_append, ih]
    simp

theorem range_sum_mul_two (n : Nat) : (List.range n).sum * 2 = n * (n - 1) := by
  have h : (List.range n).sum = ((List.range n).map (fun i => i)).sum := by
    simp
  rw [h, sum_map_range]
  exact Finset.sum_range_id_mul_two n

theorem length_fullEdges_tt (n : Nat) :
    (fullEdges n true true).length = n * n := by
  simp [fullEdges, List.length_flatMap, Function.comp_def]

theorem length_fullEdges_tf (n : Nat) :
    (fullEdges n true false).length = n * (n - 1) := by
  simp only [fullEdges, Bool.and_self, Bool.and_true, Bool.and_false,
    Bool.not_false, Bool.not_true, if_true, if_false]
  simp [List.length_flatMap, Function.comp_def]
  have h1 := range_sum_mul_two n
  have h2 : ((List.range n).map (fun i => n - (i + 1))).sum * 2 = n * (n - 1) := by
    rw [sum_map_range]
    have hc : ∑ i ∈ Finset.range n, (n - (i + 1))
        = ∑ i ∈ Finset.range n, (n - 1 - i) :=
      Finset.sum_congr rfl fun i _ => by omega
    rw [hc, Finset.sum_range_reflect (fun i => i) n]
    exact Finset.sum_range_id_mul_two n
  generalize hm : n * (n - 1) = m at h1 h2 ⊢
  omega

theorem length_fullEdges_ft_mul_two (n : Nat) :
    (fullEdges n false true).length * 2 = n * (n + 1) := by
  simp [fullEdges, List.length_flatMap, Function.comp_def]
  rw [sum_map_range]
  have hc : ∑ i ∈ Finset.range n, (n - i)
      = ∑ i ∈ Finset.range n, (i + 1) := by
    rw [← Finset.sum_range_reflect (fun i => i + 1) n]
    exact Finset.sum_congr rfl fun i hi => by
      rw [Finset.mem_range] at hi; omega
  have hs : ∑ i ∈ Finset.range n, (i + 1)
      = ∑ i ∈ Finset.range (n + 1), i := by
    rw [Finset.sum_range_succ']
    simp
  rw [hc, hs, Finset.sum_range_id_mul_two]
  simp [Nat.mul_comm]

theorem length_fullEdges_ft (n : Nat) :
    (fullEdges n false true).length = n * (n + 1) / 2 := by
  have h := length_fullEdges_ft_mul_two n
  generalize hm : n * (n + 1) = m at h ⊢
  omega

theorem length_fullEdges_ff_mul_two (n : Nat) :
    (fullEdges n false false).length * 2 = n * (n - 1) := by
  simp [fullEdges, List.length_flatMap, Function.comp_def]
  rw [sum_map_range]
  have hc : ∑ i ∈ Finset.range n, (n - (i + 1))
      = ∑ i ∈ Finset.range n, (n - 1 - i) :=
    Finset.sum_congr rfl fun i _ => by omega
  rw [hc, Finset.sum_range_reflect (fun i => i) n]
  exact Finset.sum_range_id_mul_two n

theorem length_fullEdges_ff (n : Nat) :
    (fullEdges n false false).length = n * (n - 1) / 2 := by
  have h := length_fullEdges_ff_mul_two n
  generalize hm : n * (n - 1) = m at h ⊢
  omega

theorem length_fullEdges (n : Nat) (directed loops : Bool) :
    (fullEdges n directed loops).length = fullEdgeCount n directed loops := by
  cases directed <;> cases loops <;>
    simp [fullEdgeCount, length_fullEdges_tt, length_fullEdges_tf,
      length_fullEdges_ft, length_fullEdges_ff]

theorem length_citationEdges_mul_two (n : Nat) :
    (citationEdges n).length * 2 = n * (n - 1) := by
  simp [citationEdges, List.length_flatMap, Function.comp_def,
    List.range'_eq_map_range, List.map_map]
  rw [sum_map_range]
  have hs : ∑ k ∈ Finset.range (n - 1), (1 + k)
      = ∑ i ∈ Finset.range (n - 1 + 1), i := by
    rw [Finset.sum_range_succ']
    simp [Nat.add_comm]
  rw [hs, Finset.sum_range_id_mul_two]
  cases n with
  | zero => rfl
  | succ m => simp

theorem length_citationEdges (n : Nat) :
    (citationEdges n).length = n * (n - 1) / 2 := by
  have h := length_citationEdges_mul_two n
  generalize hm : n * (n - 1) = m at h ⊢
  omega

theorem length_citationSlots (n : Nat) :
    (citationSlots n).length = n * (n - 1) := by
  have h : (citationSlots n).length
      = ((List.range' 1 (n - 1)).map (fun x => x * 2)).sum := by
    simp [citationSlots, List.length_flatMap, Function.comp_def]
  rw [h, List.range'_eq_map_range, List.map_map]
  have h2 : ((List.range (n - 1)).map ((fun x => x * 2) ∘ (1 + ·))).sum
      = ((List.range (n - 1)).map (fun k => (1 + k) * 2)).sum := by
    simp [Function.comp_def]
  rw [h2, sum_map_range]
  have h3 : ∑ k ∈ Finset.range (n - 1), (1 + k) * 2
      = (∑ k ∈ Finset.range (n - 1), (1 + k)) * 2 := by
    rw [Finset.sum_mul]
  have hs : ∑ k ∈ Finset.range (n - 1), (1 + k)
      = ∑ i ∈ Finset.range (n - 1 + 1), i := by
    rw [Finset.sum_range_succ']
    simp [Nat.add_comm]
  rw [h3, hs, Finset.sum_range_id_mul_two]
  cases n with
  | zero => rfl
  | succ m => simp

/- ### Emission order -/

theorem edgeLt_ne {a b : Nat × Nat} (h : edgeLt a b) : a ≠ b := by
  rintro rfl
  rcases h with h | ⟨-, h⟩ <;> exact Nat.lt_irrefl _ h

theorem pairwise_edgeLt_flatMap (l : List Nat) (f : Nat → List Nat)
    (hl : l.Pairwise (· < ·)) (hf : ∀ i, (f i).Pairwise (· < ·)) :
    (l.flatMap (fun i => (f i).map (fun j => (i, j)))).Pairwise edgeLt := by
  rw [List.pairwise_flatMap]
  constructor
  · intro a _
    rw [List.pairwise_map]
    exact (hf a).imp fun h => Or.inr ⟨rfl, h⟩
  · refine hl.imp fun h => ?_
    intro x hx y hy
    simp only [List.mem_map] at hx hy
    obtain ⟨j1, -, rfl⟩ := hx
    obtain ⟨j2, -, rfl⟩ := hy
    exact Or.inl h

theorem pairwise_edgeLt_fullEdges (n : Nat) (directed loops : Bool) :
    (fullEdges n directed loops).Pairwise edgeLt := by
  cases directed <;> cases loops
  · exact pairwise_edgeLt_flatMap _ _ (List.pairwise_lt_range n)
      fun i => List.pairwise_lt_range' (i + 1) (n - (i + 1))
  · exact pairwise_edgeLt_flatMap _ _ (List.pairwise_lt_range n)
      fun i => List.pairwise_lt_range' i (n - i)
  · have he : fullEdges n true false
        = (List.range n).flatMap (fun i =>
          ((List.range i ++ List.range' (i + 1) (n - (i + 1))).map
            (fun j => (i, j)))) := by
      simp [fullEdges, List.map_append]
    rw [he]
    refine pairwise_edgeLt_flatMap _ _ (List.pairwise_lt_range n) fun i => ?_
    rw [List.pairwise_append]
    refine ⟨List.pairwise_lt_range i, List.pairwise_lt_range' (i + 1) _, ?_⟩
    intro a ha b hb
    rw [List.mem_range] at ha
    rw [List.mem_range'_1] at hb
    omega
  · exact pairwise_edgeLt_flatMap _ _ (List.pairwise_lt_range n)
      fun i => List.pairwise_lt_range n

theorem nodup_fullEdges (n : Nat) (directed loops : Bool) :
    (fullEdges n directed loops).Nodup :=
  (pairwise_edgeLt_fullEdges n directed loops).imp edgeLt_ne

theorem pairwise_edgeLt_citationEdges (n : Nat) :
    (citationEdges n).Pairwise edgeLt :=
  pairwise_edgeLt_flatMap _ _ (List.pairwise_lt_range' 1 (n - 1))
    fun i => List.pairwise_lt_range i

/- ### The indexed-write model of the citation fill -/

theorem foldlM_vecWriteStep (L : List Int) : ∀ (arr : Array Int) (p : Nat),
    p + L.length ≤ arr.size →
    ∃ arr2 : Array Int,
      L.foldlM vecWriteStep (arr, p) = some (arr2, p + L.length)
        ∧ arr2.size = arr.size := by
  induction L with
  | nil =>
    intro arr p h
    exact ⟨arr, by simp, rfl⟩
  | cons v L ih =>
    intro arr p h
    simp only [List.length_cons] at h
    have hp : p < arr.size := by omega
    have hstep : vecWriteStep (arr, p) v = some (arr.set ⟨p, hp⟩ v, p + 1) := by
      simp [vecWriteStep, hp]
    obtain ⟨arr2, h2, hsz⟩ := ih (arr.set ⟨p, hp⟩ v) (p + 1)
      (by rw [Array.size_set]; omega)
    refine ⟨arr2, ?_, by rw [hsz, Array.size_set]⟩
    rw [List.foldlM_cons, hstep]
    show L.foldlM vecWriteStep (arr.set ⟨p, hp⟩ v, p + 1)
        = some (arr2, p + (L.length + 1))
    rw [h2]
    have he : p + 1 + L.length = p + (L.length + 1) := by omega
    rw [he]

theorem intCast_mul_pred_toNat (m : Nat) :
    ((m : Int) * ((m : Int) - 1)).toNat = m * (m - 1) := by
  cases m with
  | zero => rfl
  | succ k =>
    have h : ((k + 1 : Nat) : Int) * (((k + 1 : Nat) : Int) - 1)
        = (((k + 1) * k : Nat) : Int) := by
      push_cast
      ring
    rw [h, Int.toNat_natCast]
    simp

theorem citation_fill_some (m : Nat) :
    ∃ arr : Array Int,
      citationFill (m : Int) = some (arr, m * (m - 1))
        ∧ arr.size = m * (m - 1) := by
  have hts : ((m : Int)).toNat = m := by simp
  have hinit :
      (Array.mkArray (((m : Int) * ((m : Int) - 1)).toNat) (0 : Int)).size
        = m * (m - 1) := by
    rw [Array.size_mkArray, intCast_mul_pred_toNat]
  obtain ⟨arr2, h2, hsz2⟩ := foldlM_vecWriteStep (citationSlots m)
    (Array.mkArray (((m : Int) * ((m : Int) - 1)).toNat) 0) 0
    (by rw [hinit, length_citationSlots]; omega)
  refine ⟨arr2, ?_, by rw [hsz2, hinit]⟩
  show (citationSlots ((m : Int)).toNat).foldlM vecWriteStep
      (Array.mkArray (((m : Int) * ((m : Int) - 1)).toNat) 0, 0) = _
  rw [hts, h2, length_citationSlots]
  simp

theorem citationFill_isSome (n : Int) : ∃ st, citationFill n = some st := by
  rcases le_or_lt 0 n with hn | hn
  · obtain ⟨m, rfl⟩ := Int.eq_ofNat_of_zero_le hn
    obtain ⟨arr, h, -⟩ := citation_fill_some m
    exact ⟨(arr, m * (m - 1)), h⟩
  · refine ⟨(Array.mkArray (n * (n - 1)).toNat 0, 0), ?_⟩
    have h0 : n.toNat = 0 := Int.toNat_of_nonpos (le_of_lt hn)
    show (citationSlots n.toNat).foldlM vecWriteStep _ = _
    rw [h0]
    rfl

/- ### Claim theorems -/

/-- C1: For every n ≥ 0 and every combination of the directed and loops
flags, the edge list produced by igraph_full contains exactly the
closed-form number of edges of the selected variant — n² for
directed+loops, n(n−1) for directed+no-loops, n(n+1)/2 for
undirected+loops, n(n−1)/2 for undirected+no-loops — with no duplicate
edges. -/
theorem full_edge_count_exact (n : Nat) (directed loops : Bool) :
    (fullEdges n directed loops).length = fullEdgeCount n directed loops
      ∧ (fullEdges n directed loops).Nodup :=
  ⟨length_fullEdges n directed loops, nodup_fullEdges n directed loops⟩

/-- C2 counterexample: at n = 4 the citation generator produces 6 edges,
strictly fewer than the n(n−1) = 12 edges the claim asserts. -/
theorem citation_count_counterexample :
    (citationEdges 4).length = 6 ∧ (citationEdges 4).length < 4 * (4 - 1) := by
  decide

/-- C2 amended: for i from 1 to n−1 and j from 0 to i−1, igraph_full_citation
emits the edge (i, j), in increasing i and, for fixed i, increasing j;
this produces exactly n(n−1)/2 directed edges (filling n(n−1) vector
slots), and at n = 4 the result is exactly
(1,0),(2,0),(2,1),(3,0),(3,1),(3,2) in that order. -/
theorem citation_enumeration (n : Nat) :
    (citationEdges n).Pairwise edgeLt
      ∧ (citationEdges n).length = n * (n - 1) / 2
      ∧ (∀ u v : Nat, (u, v) ∈ citationEdges n ↔ v < u ∧ u < n)
      ∧ citationEdges 4 = [(1, 0), (2, 0), (2, 1), (3, 0), (3, 1), (3, 2)] :=
  ⟨pairwise_edgeLt_citationEdges n, length_citationEdges n,
    fun _ _ => mem_citationEdges, by decide⟩

/-- C3 (the code contradicts its own `reserved` comments): the capacity
passed to `igraph_vector_reserve` equals the number of edges, yet each edge
appends two slots; already at n = 2, directed+loops, the code reserves 4
slots and then appends 8, so pushes past the reserved capacity. -/
theorem full_reserve_capacity_short :
    reserveCapacity 2 true true = 4 ∧ fullSlotsAppended 2 true true = 8
      ∧ reserveCapacity 2 true true < fullSlotsAppended 2 true true := by
  refine ⟨rfl, ?_, ?_⟩ <;> decide

/-- C4 counterexample: at n = −1 igraph_full_citation raises no
InvalidArgument; it proceeds to the graph constructor with the pre-sized
vector of n(n−1) = 2 zero-initialized slots. -/
theorem citation_negative_no_error :
    igraph_full_citation (-1) true = some (Except.ok [0, 0]) := by
  rfl

/-- C4 amended: igraph_full_citation performs no validation of n at all;
for every n, negative included, the modelled core raises no error and
reaches the graph constructor exactly once with the filled vector. -/
theorem citation_no_validation (n : Int) (directed : Bool) :
    ∃ v, igraph_full_citation n directed = some (Except.ok v) := by
  obtain ⟨st, h⟩ := citationFill_isSome n
  exact ⟨st.1.toList, by simp [igraph_full_citation, h]⟩

/-- C5: igraph_full fails with InvalidArgument exactly when n < 0 (and then
produces no edge list), while n = 0 is accepted and yields the empty edge
list for every combination of the directed and loops flags. -/
theorem full_validation (n : Int) (directed loops : Bool) :
    (igraph_full n directed loops = Except.error GenError.invalidArgument
        ↔ n < 0)
      ∧ igraph_full 0 directed loops = Except.ok [] := by
  constructor
  · constructor
    · intro h
      by_contra hn
      rw [igraph_full, if_neg hn] at h
      simp at h
    · intro h
      simp [igraph_full, h]
  · have h0 : fullEdges 0 directed loops = [] := by
      cases directed <;> cases loops <;> rfl
    norm_num [igraph_full, h0]

/-- C6: for every variant, igraph_full emits the edge list in strictly
increasing lexicographic order — non-decreasing first (outer) index and,
for a fixed first index, increasing second index (in the directed+no-loops
variant the j<i block precedes the j>i block, which again gives increasing
second components). -/
theorem full_emission_order (n : Nat) (directed loops : Bool) :
    (fullEdges n directed loops).Pairwise edgeLt :=
  pairwise_edgeLt_fullEdges n directed loops

/-- C7: every edge emitted by either generator has both endpoints inside
[0, n). -/
theorem edges_within_bounds (n : Nat) (directed loops : Bool) (u v : Nat) :
    ((u, v) ∈ fullEdges n directed loops → u < n ∧ v < n)
      ∧ ((u, v) ∈ citationEdges n → u < n ∧ v < n) := by
  constructor
  · intro h
    cases directed <;> cases loops
    · rw [mem_fullEdges_ff] at h; omega
    · rw [mem_fullEdges_ft] at h; omega
    · rw [mem_fullEdges_tf] at h; omega
    · rw [mem_fullEdges_tt] at h; omega
  · intro h
    rw [mem_citationEdges] at h
    omega

/-- Witness for C7 at n = 2: the edge (0,1) of the undirected no-loops full
graph and the edge (1,0) of the citation graph are within bounds. -/
theorem edges_within_bounds_witness : (0 < 2 ∧ 1 < 2) ∧ (1 < 2 ∧ 0 < 2) :=
  ⟨(edges_within_bounds 2 false false 0 1).1 (by decide),
    (edges_within_bounds 2 false false 1 0).2 (by decide)⟩

/-- C8: read as unordered pairs, the citation edge list and the edge list
of the undirected no-loops full graph on the same n are equal as sets. -/
theorem citation_equiv_full_undirected (n u v : Nat) :
    ((u, v) ∈ citationEdges n ∨ (v, u) ∈ citationEdges n)
      ↔ ((u, v) ∈ fullEdges n false false
          ∨ (v, u) ∈ fullEdges n false false) := by
  rw [mem_citationEdges, mem_citationEdges, mem_fullEdges_ff,
    mem_fullEdges_ff]
  omega

/-- C9: the directed+loops variant at n = 3 contains the self-loops (0,0),
(1,1) and (2,2), while the directed+no-loops variant never emits an edge
with equal endpoints, for any n. -/
theorem full_loops_and_no_loops :
    ((0, 0) ∈ fullEdges 3 true true ∧ (1, 1) ∈ fullEdges 3 true true
        ∧ (2, 2) ∈ fullEdges 3 true true)
      ∧ ∀ n : Nat,
          (fullEdges n true false).all (fun p => p.1 != p.2) = true := by
  refine ⟨by decide, ?_⟩
  intro n
  rw [List.all_eq_true]
  rintro ⟨a, b⟩ hp
  have hm := mem_fullEdges_tf.1 hp
  simpa [bne_iff_ne] using hm.2.2

/-- C10: for every n ≥ 0 the fill loop of igraph_full_citation performs
only in-bounds indexed writes (the write model succeeds), and the final
write cursor equals n(n−1) with the vector size unchanged at n(n−1): the
pre-sized vector is filled exactly. -/
theorem citation_fill_in_bounds (n : Nat) :
    ∃ arr : Array Int, citationFill (n : Int) = some (arr, n * (n - 1))
      ∧ arr.size = n * (n - 1) :=
  citation_fill_some n

end IgraphFull
